import Mathlib

/-!
Verification of the history-grep core: a shallow embedding of the
history-file line parser, the parsing state machine (both the `lib.rs`
and the `histfile.rs` variant), the deduplicator, the pattern compiler
and entry matcher, and the interactive filter recomputation.

Strings are embedded as `List Char`.  Machine integers (`i64`) are
embedded as `Int` with the explicit i64 range check that Rust's
`str::parse::<i64>` performs.  Timestamps are Unix seconds wrapped in a
structure, with chrono's representable-seconds range made explicit.
-/

namespace HistoryGrep

/-- `MIN_REASONABLE_UNIXTIME` from `lib.rs`: 2010-01-01 00:00:00 UTC. -/
def MIN_REASONABLE_UNIXTIME : Int := 1262304000

/-- Largest Unix-seconds value representable by `chrono::DateTime<Utc>`
(23:59:59 on the last day of year 262143). -/
def CHRONO_MAX_SECS : Int := 8210298412799

/-- Smallest Unix-seconds value representable by `chrono::DateTime<Utc>`
(00:00:00 on the first day of year -262144).  Unreachable in this
program: every call of `fromTimestamp` is guarded by
`MIN_REASONABLE_UNIXTIME ≤ secs`. -/
def CHRONO_MIN_SECS : Int := -8334632851200

/-- `chrono::DateTime<Utc>` restricted to whole seconds (the program only
ever constructs timestamps with zero subsecond part). -/
structure Timestamp where
  secs : Int
deriving DecidableEq, Repr

/-- `chrono::DateTime::from_timestamp(secs, 0)`: `none` when the value is
outside chrono's representable range. -/
def fromTimestamp (secs : Int) : Option Timestamp :=
  if CHRONO_MIN_SECS ≤ secs ∧ secs ≤ CHRONO_MAX_SECS then some ⟨secs⟩ else none

/-- `default_ts()` from `lib.rs`. -/
def default_ts : Timestamp := ⟨MIN_REASONABLE_UNIXTIME⟩

/-- Numeric value of a list of ASCII digits, most significant first. -/
def digitsToNat (ds : List Char) : Nat :=
  ds.foldl (fun n c => n * 10 + (c.toNat - '0'.toNat)) 0

/-- i64::MIN as an integer. -/
def I64_MIN : Int := -(2 ^ 63)

/-- i64::MAX as an integer. -/
def I64_MAX : Int := 2 ^ 63 - 1

/-- Rust's `str::parse::<i64>`: an optional leading `+` or `-` sign
followed by one or more ASCII digits; fails on anything else, and fails
when the value overflows the i64 range. -/
def parseI64 (s : List Char) : Option Int :=
  match s with
  | [] => none
  | c :: rest =>
    let sign : Int := if c = '-' then -1 else 1
    let digits := if c = '-' ∨ c = '+' then rest else s
    if digits = [] ∨ ¬ digits.all Char.isDigit then none
    else
      let v : Int := sign * (digitsToNat digits : Int)
      if I64_MIN ≤ v ∧ v ≤ I64_MAX then some v else none

/-- Rust's `char::is_whitespace` (the Unicode `White_Space` property). -/
def rustIsWhitespace (c : Char) : Bool :=
  [0x09, 0x0A, 0x0B, 0x0C, 0x0D, 0x20, 0x85, 0xA0, 0x1680,
   0x2000, 0x2001, 0x2002, 0x2003, 0x2004, 0x2005, 0x2006, 0x2007,
   0x2008, 0x2009, 0x200A, 0x2028, 0x2029, 0x202F, 0x205F, 0x3000].contains c.toNat

/-- The timestamp-recognition core shared by both `ParsedLine::parse`
variants: strip a leading `#`, run `parse::<i64>` on the remainder,
require the value to be at least `MIN_REASONABLE_UNIXTIME`, and convert
with `DateTime::from_timestamp`. -/
def tsOfHashLine (line : List Char) : Option Timestamp :=
  match line with
  | '#' :: stripped =>
    match parseI64 stripped with
    | some unixtime =>
      if MIN_REASONABLE_UNIXTIME ≤ unixtime then fromTimestamp unixtime else none
    | none => none
  | _ => none

/-- `Vec<String>::join("\n")`. -/
def joinNL : List (List Char) → List Char
  | [] => []
  | [l] => l
  | l :: ls => l ++ '\n' :: joinNL ls

/-- Helper for `toLines`: accumulates the current line in reverse.  At a
newline the line is emitted with a trailing carriage return removed; at
end of input a final non-empty partial line is emitted unmodified, as
`BufRead::lines` does. -/
def toLinesGo (cur : List Char) : List Char → List (List Char)
  | [] => if cur.isEmpty then [] else [cur.reverse]
  | c :: rest =>
    if c = '\n' then
      ((if cur.head? = some '\r' then cur.tail else cur).reverse) :: toLinesGo [] rest
    else toLinesGo (c :: cur) rest

/-- `BufRead::lines` applied to the whole input: split at `'\n'`,
stripping the newline and a carriage return directly before it; a final
line needs no terminator; empty input yields no lines. -/
def toLines (input : List Char) : List (List Char) :=
  toLinesGo [] input

/-- `FileParseState` (identical in both source variants). -/
inductive FileParseState where
  | NoTimestamps
  | LastWasTimestamp
  | LastWasCommand
deriving DecidableEq, Repr

namespace Histfile

/-- `ParsedLine` from `histfile.rs` (no `Empty` variant). -/
inductive ParsedLine where
  | Timestamp (ts : HistoryGrep.Timestamp)
  | Command (text : List Char)
deriving DecidableEq, Repr

/-- `ParsedLine::parse` from `histfile.rs`. -/
def ParsedLine.parse (line : List Char) : ParsedLine :=
  match tsOfHashLine line with
  | some ts => ParsedLine.Timestamp ts
  | none => ParsedLine.Command line

/-- `HistEntry` from `histfile.rs`: timestamp plus the already-joined
command text. -/
structure HistEntry where
  ts : HistoryGrep.Timestamp
  command : List Char
deriving DecidableEq, Repr

/-- The mutable locals of `parse_history_file` in `histfile.rs`:
the result vector, the parser state, the pending timestamp and the
accumulated command lines of the in-progress entry. -/
structure ParserSt where
  ret : List HistEntry
  state : FileParseState
  cur_ts : HistoryGrep.Timestamp
  cur_lines : List (List Char)
deriving DecidableEq, Repr

/-- One iteration of the `match (&state, parsed)` in
`histfile.rs::parse_history_file`. -/
def stepParsed (st : ParserSt) (p : ParsedLine) : ParserSt :=
  match st.state, p with
  | FileParseState.NoTimestamps, ParsedLine.Command cmd =>
    { st with ret := st.ret ++ [{ ts := default_ts, command := cmd }] }
  | FileParseState.NoTimestamps, ParsedLine.Timestamp ts =>
    { st with cur_ts := ts, state := FileParseState.LastWasTimestamp }
  | FileParseState.LastWasTimestamp, ParsedLine.Command cmd =>
    { st with cur_lines := st.cur_lines ++ [cmd], state := FileParseState.LastWasCommand }
  | FileParseState.LastWasCommand, ParsedLine.Command cmd =>
    { st with cur_lines := st.cur_lines ++ [cmd], state := FileParseState.LastWasCommand }
  | FileParseState.LastWasTimestamp, ParsedLine.Timestamp _ =>
    { st with state := FileParseState.LastWasTimestamp }
  | FileParseState.LastWasCommand, ParsedLine.Timestamp ts =>
    { ret := st.ret ++ [{ ts := st.cur_ts, command := joinNL st.cur_lines }],
      state := FileParseState.LastWasTimestamp, cur_ts := ts, cur_lines := [] }

/-- Parse one line and feed it to the state machine. -/
def step (st : ParserSt) (line : List Char) : ParserSt :=
  stepParsed st (ParsedLine.parse line)

/-- The `for` loop of `histfile.rs::parse_history_file`. -/
def runLines (st : ParserSt) : List (List Char) → ParserSt
  | [] => st
  | l :: ls => runLines (step st l) ls

/-- Initial locals of `parse_history_file`. -/
def initSt : ParserSt :=
  { ret := [], state := FileParseState.NoTimestamps, cur_ts := default_ts, cur_lines := [] }

/-- The post-loop flush of `parse_history_file`: push the in-progress
entry when the final state is `LastWasCommand`. -/
def finalize (st : ParserSt) : List HistEntry :=
  if st.state = FileParseState.LastWasCommand then
    st.ret ++ [{ ts := st.cur_ts, command := joinNL st.cur_lines }]
  else st.ret

/-- `parse_history_file` on an already-split list of lines. -/
def parseLines (lines : List (List Char)) : List HistEntry :=
  finalize (runLines initSt lines)

/-- `histfile.rs::parse_history_file` on raw input text. -/
def parse_history_file (input : List Char) : List HistEntry :=
  parseLines (toLines input)

end Histfile

namespace Lib

/-- `ParsedLine` from `lib.rs` (with the `Empty` variant). -/
inductive ParsedLine where
  | Timestamp (ts : HistoryGrep.Timestamp)
  | Command (text : List Char)
  | Empty
deriving DecidableEq, Repr

/-- `ParsedLine::parse` from `lib.rs`: empty or all-whitespace lines are
`Empty`; otherwise as in the `histfile.rs` variant. -/
def ParsedLine.parse (line : List Char) : ParsedLine :=
  if line.isEmpty || line.all rustIsWhitespace then ParsedLine.Empty
  else
    match tsOfHashLine line with
    | some ts => ParsedLine.Timestamp ts
    | none => ParsedLine.Command line

/-- `HistEntry` from `lib.rs`: timestamp plus the individual command
lines. -/
structure HistEntry where
  ts : HistoryGrep.Timestamp
  lines : List (List Char)
deriving DecidableEq, Repr

/-- `HistEntry::with_ts`. -/
def HistEntry.with_ts (ts : HistoryGrep.Timestamp) : HistEntry :=
  { ts := ts, lines := [] }

/-- The mutable locals of `parse_history_file` in `lib.rs`. -/
structure ParserSt where
  ret : List HistEntry
  state : FileParseState
  cur_entry : HistEntry
deriving DecidableEq, Repr

/-- One iteration of the `match (&state, parsed)` in
`lib.rs::parse_history_file`.  The `(_, Empty)` arm only logs and leaves
every local unchanged. -/
def stepParsed (st : ParserSt) (p : ParsedLine) : ParserSt :=
  match st.state, p with
  | _, ParsedLine.Empty => st
  | FileParseState.NoTimestamps, ParsedLine.Command cmd =>
    { st with ret := st.ret ++ [{ ts := default_ts, lines := [cmd] }] }
  | FileParseState.NoTimestamps, ParsedLine.Timestamp ts =>
    { st with
      state := FileParseState.LastWasTimestamp
      cur_entry := { st.cur_entry with ts := ts } }
  | FileParseState.LastWasTimestamp, ParsedLine.Command cmd =>
    { st with
      state := FileParseState.LastWasCommand
      cur_entry := { st.cur_entry with lines := st.cur_entry.lines ++ [cmd] } }
  | FileParseState.LastWasCommand, ParsedLine.Command cmd =>
    { st with
      state := FileParseState.LastWasCommand
      cur_entry := { st.cur_entry with lines := st.cur_entry.lines ++ [cmd] } }
  | FileParseState.LastWasTimestamp, ParsedLine.Timestamp _ =>
    { st with state := FileParseState.LastWasTimestamp }
  | FileParseState.LastWasCommand, ParsedLine.Timestamp ts =>
    { ret := st.ret ++ [st.cur_entry], cur_entry := HistEntry.with_ts ts,
      state := FileParseState.LastWasTimestamp }

/-- Parse one line and feed it to the state machine. -/
def step (st : ParserSt) (line : List Char) : ParserSt :=
  stepParsed st (ParsedLine.parse line)

/-- The `for` loop of `lib.rs::parse_history_file`. -/
def runLines (st : ParserSt) : List (List Char) → ParserSt
  | [] => st
  | l :: ls => runLines (step st l) ls

/-- Initial locals of `parse_history_file`. -/
def initSt : ParserSt :=
  { ret := [], state := FileParseState.NoTimestamps, cur_entry := HistEntry.with_ts default_ts }

/-- The post-loop flush of `lib.rs::parse_history_file`. -/
def finalize (st : ParserSt) : List HistEntry :=
  if st.state = FileParseState.LastWasCommand then st.ret ++ [st.cur_entry] else st.ret

/-- `parse_history_file` on an already-split list of lines. -/
def parseLines (lines : List (List Char)) : List HistEntry :=
  finalize (runLines initSt lines)

/-- `lib.rs::parse_history_file` on raw input text. -/
def parse_history_file (input : List Char) : List HistEntry :=
  parseLines (toLines input)

end Lib

namespace Histfile

/-- The loop body of `dedup_entries`: skip an entry whose command equals
the command of the last entry already kept. -/
def dedupGo (ret : List HistEntry) : List HistEntry → List HistEntry
  | [] => ret
  | e :: rest =>
    if (ret.getLast?).any (fun prev => decide (prev.command = e.command)) then dedupGo ret rest
    else dedupGo (ret ++ [e]) rest

/-- `histfile.rs::dedup_entries`. -/
def dedup_entries (entries : List HistEntry) : List HistEntry :=
  if entries.isEmpty then entries else dedupGo [] entries

end Histfile

/-- `CaseMode` from `lib.rs`. -/
inductive CaseMode where
  | Sensitive
  | Insensitive
deriving DecidableEq, Repr

/-- `CaseMode::from_sensitive`. -/
def CaseMode.from_sensitive (is_sensitive : Bool) : CaseMode :=
  if is_sensitive then CaseMode.Sensitive else CaseMode.Insensitive

/-- One single-character matcher of the regex engine: a literal
character, a character class, or `.`. -/
inductive RItem where
  | lit (c : Char)
  | cls (cs : List Char)
  | anyc
deriving DecidableEq, Repr

/-- Modelled from the spec: the pattern parser of the external `regex`
crate (not part of this repository), restricted to the constructs the
verified claims exercise — literal characters, backslash escapes,
simple character classes `[...]` and the wildcard `.`.  The second
argument is `some acc` while scanning the interior of a class.
Patterns with quantifiers, anchors, groups or alternation are outside
this fragment; no claim depends on their matching semantics. -/
def parseRegexGo : List Char → Option (List Char) → Option (List RItem)
  | [], none => some []
  | [], some _ => none
  | c :: rest, some acc =>
    if c = ']' then (parseRegexGo rest none).map (fun items => RItem.cls acc.reverse :: items)
    else parseRegexGo rest (some (c :: acc))
  | c :: rest, none =>
    if c = '\\' then
      match rest with
      | [] => none
      | d :: rest2 => (parseRegexGo rest2 none).map (fun items => RItem.lit d :: items)
    else if c = '[' then parseRegexGo rest (some [])
    else if c = '.' then (parseRegexGo rest none).map (fun items => RItem.anyc :: items)
    else (parseRegexGo rest none).map (fun items => RItem.lit c :: items)

/-- Parse a pattern string into a sequence of single-character
matchers. -/
def parseRegex (pattern : List Char) : Option (List RItem) :=
  parseRegexGo pattern none

/-- The characters `regex::escape` puts a backslash in front of. -/
def metaChars : List Char :=
  ['\\', '.', '+', '*', '?', '(', ')', '|', '[', ']', '\x7b', '\x7d',
   '^', '$', '#', '&', '-', '~']

/-- `regex::escape`: backslash-escape every regex metacharacter. -/
def regexEscape : List Char → List Char
  | [] => []
  | c :: rest => (if c ∈ metaChars then ['\\', c] else [c]) ++ regexEscape rest

/-- Case folding of one character under a case mode.  The Rust `regex`
crate applies Unicode case folding when `case_insensitive` is set; the
model folds with `Char.toLower` (ASCII), which agrees on every pattern
and text the claims mention. -/
def foldC (m : CaseMode) (c : Char) : Char :=
  if m = CaseMode.Insensitive then c.toLower else c

/-- Case folding of a whole string under a case mode. -/
def foldChars (m : CaseMode) (l : List Char) : List Char :=
  l.map (foldC m)

/-- Whether one matcher item accepts one text character. -/
def matchOne (m : CaseMode) : RItem → Char → Bool
  | RItem.lit d, c => decide (foldC m c = foldC m d)
  | RItem.cls ds, c => ds.any (fun d => decide (foldC m c = foldC m d))
  | RItem.anyc, c => decide (c ≠ '\n')

/-- Whether an item sequence matches a block of text starting at its
first character. -/
def seqFront (m : CaseMode) : List RItem → List Char → Bool
  | [], _ => true
  | _ :: _, [] => false
  | i :: items, c :: cs => matchOne m i c && seqFront m items cs

/-- Modelled from the spec: a compiled matcher of the external `regex`
crate (`RegexBuilder::build` with `case_insensitive` per the mode and
`unicode(true)`). -/
structure Regex where
  case_mode : CaseMode
  items : List RItem
deriving DecidableEq, Repr

/-- `Regex::is_match`: substring search — the item sequence may match
starting at any position of the text. -/
def Regex.is_match (re : Regex) (text : List Char) : Bool :=
  (text.tails).any (seqFront re.case_mode re.items)

/-- The `strip_prefix("/").and_then(strip_suffix("/"))` step of
`string_to_regex`. -/
def stripSlashes (s : List Char) : Option (List Char) :=
  match s with
  | '/' :: rest => if rest.getLast? = some '/' then some rest.dropLast else none
  | _ => none

/-- `lib.rs::string_to_regex`: delimiter-wrapped input compiles its
interior directly as a regular expression, anything else is escaped and
so matches literally. -/
def string_to_regex (s : List Char) (case_mode : CaseMode) : Option Regex :=
  let pattern :=
    match stripSlashes s with
    | some p => p
    | none => regexEscape s
  (parseRegex pattern).map (fun items => { case_mode := case_mode, items := items })

/-- Modelled from the spec: `raw_pattern_to_regex`, called from
`interactive.rs` but not defined in any file under `src/` — per §4.3 it
is the plain builder step (case mode applied, no delimiter handling)
run on an already-prepared pattern string. -/
def raw_pattern_to_regex (pattern : List Char) (case_mode : CaseMode) : Option Regex :=
  (parseRegex pattern).map (fun items => { case_mode := case_mode, items := items })

namespace Histfile

/-- `histfile.rs::HistEntry::matches`: all includes must match the
command text and no exclude may. -/
def HistEntry.matches (e : HistEntry) (include_re exclude_re : List Regex) : Bool :=
  include_re.all (fun re => re.is_match e.command)
    && !(exclude_re.any (fun re => re.is_match e.command))

end Histfile

namespace Lib

/-- `lib.rs::HistEntry::matches`: the lines are joined with newlines
(a one-line entry borrows its single line directly) and then checked
against includes and excludes. -/
def HistEntry.matches (e : HistEntry) (include_re exclude_re : List Regex) : Bool :=
  let command := if e.lines.length = 1 then e.lines.headD [] else joinNL e.lines
  include_re.all (fun re => re.is_match command)
    && !(exclude_re.any (fun re => re.is_match command))

end Lib

/-- Rust's `char::is_ascii_whitespace`: space, tab, newline, form feed,
carriage return. -/
def isAsciiWS (c : Char) : Bool :=
  c = ' ' || c = '\t' || c = '\n' || c = '\x0c' || c = '\r'

/-- Helper for `split_ascii_whitespace`, accumulating the current word
in reverse. -/
def splitWSGo (cur : List Char) : List Char → List (List Char)
  | [] => if cur.isEmpty then [] else [cur.reverse]
  | c :: rest =>
    if isAsciiWS c then
      if cur.isEmpty then splitWSGo [] rest else cur.reverse :: splitWSGo [] rest
    else splitWSGo (c :: cur) rest

/-- Rust's `str::split_ascii_whitespace`: the whitespace-separated
words, with no empty words. -/
def split_ascii_whitespace (s : List Char) : List (List Char) :=
  splitWSGo [] s

/-- `interactive.rs::App::get_include_regexes`: each word of the search
text is escaped and compiled under the active case mode.  The source
unwraps the build result; the model keeps the successful results (a
lemma shows the build of an escaped word never fails). -/
def get_include_regexes (searchValue : List Char) (case_mode : CaseMode) : List Regex :=
  (split_ascii_whitespace searchValue).filterMap
    (fun word => raw_pattern_to_regex (regexEscape word) case_mode)

/-- `interactive.rs::FilteredList`, reduced to the data the claims are
about: the filtered entries and the selected index. -/
structure FilteredList where
  entries : List Histfile.HistEntry
  selected : Option Nat
deriving DecidableEq, Repr

/-- Modelled from the spec: `FilteredList::new` calls ratatui's
`ListState::select_last` (ratatui is an external collaborator, §6);
per §4.5 the selection lands on the last entry of the new sub-list, or
nowhere when the sub-list is empty. -/
def FilteredList.new (entries : List Histfile.HistEntry) : FilteredList :=
  { entries := entries
    selected := if entries.isEmpty then none else some (entries.length - 1) }

/-- `interactive.rs::App::do_filter`: recompute the include regexes from
the search text and rebuild the filtered list from the master list. -/
def do_filter (masterEntries : List Histfile.HistEntry) (searchValue : List Char)
    (case_mode : CaseMode) : FilteredList :=
  FilteredList.new
    (masterEntries.filter (fun e => e.matches (get_include_regexes searchValue case_mode) []))

/-- Whether `needle` occurs at the very front of `hay`. -/
def frontEq : List Char → List Char → Bool
  | [], _ => true
  | _ :: _, [] => false
  | p :: ps, c :: cs => decide (p = c) && frontEq ps cs

/-- Whether `needle` occurs contiguously anywhere inside `hay`. -/
def containsSub (needle hay : List Char) : Bool :=
  (hay.tails).any (frontEq needle)

/-! ### Lemmas about the regex engine -/

theorem parseRegexGo_cons_notMeta (c : Char) (rest : List Char) (hc : c ∉ metaChars) :
    parseRegexGo (c :: rest) none
      = (parseRegexGo rest none).map (fun items => RItem.lit c :: items) := by
  have h1 : c ≠ '\\' := by rintro rfl; exact hc (by simp [metaChars])
  have h2 : c ≠ '[' := by rintro rfl; exact hc (by simp [metaChars])
  have h3 : c ≠ '.' := by rintro rfl; exact hc (by simp [metaChars])
  conv_lhs => rw [parseRegexGo.eq_def]
  simp [h1, h2, h3]

theorem parseRegex_escape (s : List Char) :
    parseRegex (regexEscape s) = some (s.map RItem.lit) := by
  induction s with
  | nil => rfl
  | cons c rest ih =>
    by_cases hc : c ∈ metaChars
    · show parseRegexGo (regexEscape (c :: rest)) none = _
      simp only [regexEscape, hc, if_pos]
      show parseRegexGo ('\\' :: c :: regexEscape rest) none = _
      simp [parseRegexGo, parseRegex] at ih ⊢
      simp [ih]
    · show parseRegexGo (regexEscape (c :: rest)) none = _
      simp only [regexEscape, hc, if_neg, not_false_iff]
      show parseRegexGo (c :: regexEscape rest) none = _
      rw [parseRegexGo_cons_notMeta c _ hc]
      simp [parseRegex] at ih
      simp [ih]

theorem seqFront_lit (m : CaseMode) :
    ∀ (s t : List Char),
      seqFront m (s.map RItem.lit) t = frontEq (foldChars m s) (foldChars m t)
  | [], _ => rfl
  | p :: ps, [] => rfl
  | p :: ps, c :: cs => by
    have ih := seqFront_lit m ps cs
    simp only [List.map_cons, seqFront, matchOne, foldChars, frontEq] at ih ⊢
    rw [ih]
    congr 1
    exact decide_eq_decide.mpr ⟨fun h => h.symm, fun h => h.symm⟩

theorem isMatch_lit (m : CaseMode) (s t : List Char) :
    Regex.is_match { case_mode := m, items := s.map RItem.lit } t
      = containsSub (foldChars m s) (foldChars m t) := by
  show (t.tails).any (seqFront m (s.map RItem.lit))
      = ((foldChars m t).tails).any (frontEq (foldChars m s))
  induction t with
  | nil => simp [seqFront_lit m s, foldChars]
  | cons c cs ih =>
    rw [List.tails_cons]
    have : foldChars m (c :: cs) = foldC m c :: foldChars m cs := rfl
    rw [this, List.tails_cons]
    simp only [List.any_cons]
    rw [ih, seqFront_lit m s (c :: cs)]
    rfl

theorem frontEq_iff :
    ∀ (n h : List Char), frontEq n h = true ↔ ∃ r, h = n ++ r
  | [], h => by simp [frontEq]
  | p :: ps, [] => by simp [frontEq]
  | p :: ps, c :: cs => by
    simp only [frontEq, Bool.and_eq_true, decide_eq_true_eq]
    rw [frontEq_iff ps cs]
    constructor
    · rintro ⟨rfl, r, rfl⟩
      exact ⟨r, rfl⟩
    · rintro ⟨r, hr⟩
      simp only [List.cons_append, List.cons.injEq] at hr
      exact ⟨hr.1.symm, r, hr.2⟩

theorem containsSub_iff (n h : List Char) :
    containsSub n h = true ↔ ∃ l r, h = l ++ n ++ r := by
  show (h.tails).any (frontEq n) = true ↔ _
  rw [List.any_eq_true]
  constructor
  · rintro ⟨u, hu, hfe⟩
    rw [List.mem_tails] at hu
    obtain ⟨l, rfl⟩ := hu
    obtain ⟨r, rfl⟩ := (frontEq_iff n u).mp hfe
    exact ⟨l, r, by simp⟩
  · rintro ⟨l, r, rfl⟩
    refine ⟨n ++ r, ?_, ?_⟩
    · rw [List.mem_tails]
      exact ⟨l, by simp⟩
    · exact (frontEq_iff n (n ++ r)).mpr ⟨r, rfl⟩

/-! ### Lemmas about deduplication -/

namespace Histfile

/-- The relation under which `dedup_entries` keeps an entry: its command
differs from the previous kept entry's command. -/
def cmdDiff (a b : HistEntry) : Prop := ¬(a.command = b.command)

instance : DecidableRel cmdDiff := fun _ _ => instDecidableNot

theorem dedupGo_append (es : List HistEntry) :
    ∀ (ret : List HistEntry) (a : HistEntry),
      dedupGo (ret ++ [a]) es = ret ++ dedupGo [a] es := by
  induction es with
  | nil => intro ret a; rfl
  | cons e rest ih =>
    intro ret a
    by_cases h : a.command = e.command
    · have hl : ((ret ++ [a]).getLast?).any (fun prev => decide (prev.command = e.command))
          = true := by simp [h]
      have hl2 : (([a] : List HistEntry).getLast?).any
          (fun prev => decide (prev.command = e.command)) = true := by simp [h]
      rw [dedupGo, if_pos hl, dedupGo, if_pos hl2, ih]
    · have hl : ¬ (((ret ++ [a]).getLast?).any
          (fun prev => decide (prev.command = e.command)) = true) := by simp [h]
      have hl2 : ¬ ((([a] : List HistEntry).getLast?).any
          (fun prev => decide (prev.command = e.command)) = true) := by simp [h]
      rw [dedupGo, if_neg hl, dedupGo, if_neg hl2]
      calc dedupGo (ret ++ [a] ++ [e]) rest
          = (ret ++ [a]) ++ dedupGo [e] rest := ih (ret ++ [a]) e
        _ = ret ++ ([a] ++ dedupGo [e] rest) := by simp
        _ = ret ++ dedupGo ([a] ++ [e]) rest := by rw [ih [a] e]

theorem dedupGo_destutter (es : List HistEntry) :
    ∀ (a : HistEntry), dedupGo [a] es = List.destutter' cmdDiff a es := by
  induction es with
  | nil => intro a; rfl
  | cons e rest ih =>
    intro a
    by_cases h : a.command = e.command
    · have hl : (([a] : List HistEntry).getLast?).any
          (fun prev => decide (prev.command = e.command)) = true := by simp [h]
      have hno : ¬ cmdDiff a e := by simp [cmdDiff, h]
      rw [dedupGo, if_pos hl, List.destutter'_cons_neg rest hno, ih]
    · have hl : ¬ ((([a] : List HistEntry).getLast?).any
          (fun prev => decide (prev.command = e.command)) = true) := by simp [h]
      have hyes : cmdDiff a e := h
      rw [dedupGo, if_neg hl, List.destutter'_cons_pos rest hyes]
      rw [show ([a] ++ [e] : List HistEntry) = [a] ++ [e] from rfl, dedupGo_append rest [a] e]
      rw [ih e]
      rfl

theorem dedup_entries_eq_destutter (l : List HistEntry) :
    dedup_entries l = l.destutter cmdDiff := by
  cases l with
  | nil => rfl
  | cons a es =>
    rw [dedup_entries, if_neg (by simp)]
    have h0 : dedupGo [] (a :: es) = dedupGo [a] es := by
      rw [dedupGo]
      simp
    rw [h0, dedupGo_destutter, List.destutter_cons']

/-- Deduplication as the claim describes it, written from the spec's
words for comparison with `dedup_entries`: once a run's first entry `a`
has been kept, the remaining entries of `a`'s run (consecutive entries
whose command equals `a`'s) are discarded, and the first entry whose
command differs starts a new run and is kept as its first entry — so a
duplicate that is not consecutive with its earlier occurrence is
retained. -/
def keepRunTail (a : HistEntry) : List HistEntry → List HistEntry
  | [] => []
  | b :: rest =>
    if b.command = a.command then keepRunTail a rest else b :: keepRunTail b rest

/-- Spec-side deduplication: the first entry of every run of
consecutive entries with identical command text is kept, every other
entry of the run is discarded. -/
def keepFirstOfRuns : List HistEntry → List HistEntry
  | [] => []
  | a :: rest => a :: keepRunTail a rest

theorem destutter'_eq_keepRunTail :
    ∀ (es : List HistEntry) (a : HistEntry),
      List.destutter' cmdDiff a es = a :: keepRunTail a es := by
  intro es
  induction es with
  | nil => intro a; rfl
  | cons e rest ih =>
    intro a
    by_cases h : e.command = a.command
    · rw [List.destutter'_cons_neg rest (by simp [cmdDiff, h]), keepRunTail, if_pos h, ih a]
    · rw [List.destutter'_cons_pos rest (show cmdDiff a e from fun hc => h hc.symm),
        keepRunTail, if_neg h, ih e]

theorem dedup_entries_eq_keepFirstOfRuns (l : List HistEntry) :
    dedup_entries l = keepFirstOfRuns l := by
  cases l with
  | nil => rfl
  | cons a rest =>
    rw [dedup_entries_eq_destutter, List.destutter_cons', destutter'_eq_keepRunTail rest a,
      keepFirstOfRuns]

end Histfile

/-! ### Lemmas about line classification -/

theorem tsOfHashLine_bounds (line : List Char) (t : Timestamp)
    (h : tsOfHashLine line = some t) :
    MIN_REASONABLE_UNIXTIME ≤ t.secs ∧ t.secs ≤ CHRONO_MAX_SECS := by
  match line with
  | [] => simp [tsOfHashLine] at h
  | c :: body =>
    by_cases hc : c = '#'
    · subst hc
      rw [show tsOfHashLine ('#' :: body)
          = (match parseI64 body with
             | some unixtime =>
               if MIN_REASONABLE_UNIXTIME ≤ unixtime then fromTimestamp unixtime else none
             | none => none) from rfl] at h
      cases hp : parseI64 body with
      | none => rw [hp] at h; simp at h
      | some u =>
        rw [hp] at h
        simp only at h
        by_cases hm : MIN_REASONABLE_UNIXTIME ≤ u
        · rw [if_pos hm, fromTimestamp] at h
          by_cases hr : CHRONO_MIN_SECS ≤ u ∧ u ≤ CHRONO_MAX_SECS
          · rw [if_pos hr] at h
            cases h
            exact ⟨hm, hr.2⟩
          · rw [if_neg hr] at h; simp at h
        · rw [if_neg hm] at h; simp at h
    · rw [show tsOfHashLine (c :: body) = none from by
        rw [tsOfHashLine.eq_def]
        cases body <;> simp [hc]] at h
      simp at h

theorem tsOfHashLine_some_iff (line : List Char) (v : Int) :
    tsOfHashLine line = some ⟨v⟩
      ↔ ∃ body, line = '#' :: body ∧ parseI64 body = some v
          ∧ MIN_REASONABLE_UNIXTIME ≤ v ∧ v ≤ CHRONO_MAX_SECS := by
  constructor
  · intro h
    match hl : line with
    | [] => simp [tsOfHashLine] at h
    | c :: body =>
      by_cases hc : c = '#'
      · subst hc
        refine ⟨body, rfl, ?_⟩
        rw [show tsOfHashLine ('#' :: body)
            = (match parseI64 body with
               | some unixtime =>
                 if MIN_REASONABLE_UNIXTIME ≤ unixtime then fromTimestamp unixtime else none
               | none => none) from rfl] at h
        cases hp : parseI64 body with
        | none => rw [hp] at h; simp at h
        | some u =>
          rw [hp] at h
          simp only at h
          by_cases hm : MIN_REASONABLE_UNIXTIME ≤ u
          · rw [if_pos hm, fromTimestamp] at h
            by_cases hr : CHRONO_MIN_SECS ≤ u ∧ u ≤ CHRONO_MAX_SECS
            · rw [if_pos hr] at h
              have huv : u = v := by cases h; rfl
              subst huv
              exact ⟨rfl, hm, hr.2⟩
            · rw [if_neg hr] at h; simp at h
          · rw [if_neg hm] at h; simp at h
      · rw [show tsOfHashLine (c :: body) = none from by
          rw [tsOfHashLine.eq_def]
          cases body <;> simp [hc]] at h
        simp at h
  · rintro ⟨body, rfl, hp, hm, hmax⟩
    rw [show tsOfHashLine ('#' :: body)
        = (match parseI64 body with
           | some unixtime =>
             if MIN_REASONABLE_UNIXTIME ≤ unixtime then fromTimestamp unixtime else none
           | none => none) from rfl, hp]
    simp only
    have hlo : CHRONO_MIN_SECS ≤ v := by
      unfold MIN_REASONABLE_UNIXTIME at hm
      unfold CHRONO_MIN_SECS
      omega
    rw [if_pos hm, fromTimestamp, if_pos ⟨hlo, hmax⟩]

namespace Histfile

theorem hist_parse_eq_command (line : List Char) (h : tsOfHashLine line = none) :
    ParsedLine.parse line = ParsedLine.Command line := by
  rw [ParsedLine.parse, h]

theorem parse_cases (line : List Char) :
    (∃ ts, ParsedLine.parse line = ParsedLine.Timestamp ts ∧ tsOfHashLine line = some ts)
      ∨ (ParsedLine.parse line = ParsedLine.Command line ∧ tsOfHashLine line = none) := by
  cases h : tsOfHashLine line with
  | some ts => exact Or.inl ⟨ts, by rw [ParsedLine.parse, h], rfl⟩
  | none => exact Or.inr ⟨by rw [ParsedLine.parse, h], rfl⟩

end Histfile

namespace Lib

theorem parse_eq_empty (line : List Char)
    (h : (line.isEmpty || line.all rustIsWhitespace) = true) :
    ParsedLine.parse line = ParsedLine.Empty := by
  rw [ParsedLine.parse, if_pos h]

theorem lib_parse_eq_command (line : List Char)
    (h0 : (line.isEmpty || line.all rustIsWhitespace) = false)
    (h : tsOfHashLine line = none) :
    ParsedLine.parse line = ParsedLine.Command line := by
  rw [ParsedLine.parse, if_neg (by simp [h0]), h]

theorem step_empty (st : ParserSt) : stepParsed st ParsedLine.Empty = st := by
  cases hs : st.state <;> simp [stepParsed, hs]

end Lib

/-! ### Runs of the state machines over timestamp-free inputs -/

namespace Histfile

theorem hist_runLines_noTimestamps :
    ∀ (ls : List (List Char)) (st : ParserSt),
      st.state = FileParseState.NoTimestamps →
      (∀ l ∈ ls, tsOfHashLine l = none) →
      runLines st ls
        = { st with ret := st.ret ++ ls.map (fun l => { ts := default_ts, command := l }) }
  | [], st, _, _ => by simp [runLines]
  | l :: ls, st, hst, hls => by
    obtain ⟨ret, state, cur_ts, cur_lines⟩ := st
    simp only at hst
    subst hst
    rw [runLines, step, hist_parse_eq_command l (hls l (by simp))]
    rw [show stepParsed
          { ret := ret, state := FileParseState.NoTimestamps, cur_ts := cur_ts,
            cur_lines := cur_lines } (ParsedLine.Command l)
        = { ret := ret ++ [{ ts := default_ts, command := l }],
            state := FileParseState.NoTimestamps, cur_ts := cur_ts,
            cur_lines := cur_lines } from rfl]
    rw [hist_runLines_noTimestamps ls _ rfl (fun x hx => hls x (by simp [hx]))]
    simp

theorem hist_step_ret_append (st : ParserSt) (line : List Char) :
    ∃ extra, (step st line).ret = st.ret ++ extra := by
  obtain ⟨ret, state, cur_ts, cur_lines⟩ := st
  cases hp : ParsedLine.parse line with
  | Timestamp ts => cases state <;> simp [step, hp, stepParsed]
  | Command cmd => cases state <;> simp [step, hp, stepParsed]

theorem hist_runLines_ret_append :
    ∀ (ls : List (List Char)) (st : ParserSt),
      ∃ extra, (runLines st ls).ret = st.ret ++ extra
  | [], st => ⟨[], by simp [runLines]⟩
  | l :: ls, st => by
    obtain ⟨e1, h1⟩ := hist_step_ret_append st l
    obtain ⟨e2, h2⟩ := hist_runLines_ret_append ls (step st l)
    exact ⟨e1 ++ e2, by rw [runLines, h2, h1, List.append_assoc]⟩

end Histfile

namespace Lib

theorem lib_runLines_noTimestamps :
    ∀ (ls : List (List Char)) (st : ParserSt),
      st.state = FileParseState.NoTimestamps →
      (∀ l ∈ ls, tsOfHashLine l = none) →
      runLines st ls
        = { st with ret := st.ret
              ++ ((ls.filter (fun l => !(l.isEmpty || l.all rustIsWhitespace))).map
                    (fun l => { ts := default_ts, lines := [l] })) }
  | [], st, _, _ => by simp [runLines]
  | l :: ls, st, hst, hls => by
    by_cases hw : (l.isEmpty || l.all rustIsWhitespace) = true
    · rw [runLines, step, parse_eq_empty l hw, step_empty,
        lib_runLines_noTimestamps ls st hst (fun x hx => hls x (by simp [hx])),
        List.filter_cons, if_neg (by simp [hw])]
    · obtain ⟨ret, state, cur_entry⟩ := st
      simp only at hst
      subst hst
      rw [runLines, step,
        lib_parse_eq_command l (by simpa using hw) (hls l (by simp))]
      rw [show stepParsed
            { ret := ret, state := FileParseState.NoTimestamps, cur_entry := cur_entry }
            (ParsedLine.Command l)
          = { ret := ret ++ [{ ts := default_ts, lines := [l] }],
              state := FileParseState.NoTimestamps, cur_entry := cur_entry } from rfl]
      have hwf : (l.isEmpty || l.all rustIsWhitespace) = false := by
        rw [Bool.not_eq_true] at hw
        exact hw
      rw [lib_runLines_noTimestamps ls _ rfl (fun x hx => hls x (by simp [hx])),
        List.filter_cons, if_pos (by simp [hwf])]
      simp

theorem lib_step_ret_append (st : ParserSt) (line : List Char) :
    ∃ extra, (step st line).ret = st.ret ++ extra := by
  obtain ⟨ret, state, cur_entry⟩ := st
  cases hp : ParsedLine.parse line with
  | Timestamp ts => cases state <;> simp [step, hp, stepParsed]
  | Command cmd => cases state <;> simp [step, hp, stepParsed]
  | Empty => cases state <;> simp [step, hp, stepParsed]

theorem lib_runLines_ret_append :
    ∀ (ls : List (List Char)) (st : ParserSt),
      ∃ extra, (runLines st ls).ret = st.ret ++ extra
  | [], st => ⟨[], by simp [runLines]⟩
  | l :: ls, st => by
    obtain ⟨e1, h1⟩ := lib_step_ret_append st l
    obtain ⟨e2, h2⟩ := lib_runLines_ret_append ls (step st l)
    exact ⟨e1 ++ e2, by rw [runLines, h2, h1, List.append_assoc]⟩

end Lib

/-! ### Timestamp and line invariants of the machines -/

theorem default_ts_bounds :
    MIN_REASONABLE_UNIXTIME ≤ default_ts.secs ∧ default_ts.secs ≤ CHRONO_MAX_SECS := by
  decide

namespace Histfile

/-- Timestamp invariant of an emitted entry: between the sentinel
threshold and chrono's maximum. -/
def entryTsOK (e : HistEntry) : Prop :=
  MIN_REASONABLE_UNIXTIME ≤ e.ts.secs ∧ e.ts.secs ≤ CHRONO_MAX_SECS

/-- Machine invariant: the pending timestamp and every emitted entry
satisfy the timestamp bounds. -/
def stOK (st : ParserSt) : Prop :=
  (MIN_REASONABLE_UNIXTIME ≤ st.cur_ts.secs ∧ st.cur_ts.secs ≤ CHRONO_MAX_SECS)
    ∧ ∀ e ∈ st.ret, entryTsOK e

theorem hist_step_stOK (st : ParserSt) (line : List Char) (h : stOK st) : stOK (step st line) := by
  obtain ⟨ret, state, cur_ts, cur_lines⟩ := st
  obtain ⟨hts, hret⟩ := h
  rcases parse_cases line with ⟨ts, hp, hsome⟩ | ⟨hp, -⟩
  · have hb := tsOfHashLine_bounds line ts hsome
    cases state
    · rw [step, hp]
      exact ⟨hb, hret⟩
    · rw [step, hp]
      exact ⟨hts, hret⟩
    · rw [step, hp]
      refine ⟨hb, fun e he => ?_⟩
      rcases List.mem_append.mp he with he2 | he2
      · exact hret e he2
      · rw [List.mem_singleton] at he2
        subst he2
        exact hts
  · cases state
    · rw [step, hp]
      refine ⟨hts, fun e he => ?_⟩
      rcases List.mem_append.mp he with he2 | he2
      · exact hret e he2
      · rw [List.mem_singleton] at he2
        subst he2
        exact default_ts_bounds
    · rw [step, hp]
      exact ⟨hts, hret⟩
    · rw [step, hp]
      exact ⟨hts, hret⟩

theorem hist_runLines_stOK :
    ∀ (ls : List (List Char)) (st : ParserSt), stOK st → stOK (runLines st ls)
  | [], _, h => h
  | l :: ls, st, h => hist_runLines_stOK ls (step st l) (hist_step_stOK st l h)

theorem parseLines_tsOK (lines : List (List Char)) :
    ∀ e ∈ parseLines lines, entryTsOK e := by
  intro e he
  have hrun : stOK (runLines initSt lines) :=
    hist_runLines_stOK lines initSt ⟨default_ts_bounds, by simp [initSt]⟩
  rw [parseLines, finalize] at he
  by_cases hs : (runLines initSt lines).state = FileParseState.LastWasCommand
  · rw [if_pos hs] at he
    rcases List.mem_append.mp he with he2 | he2
    · exact hrun.2 e he2
    · rw [List.mem_singleton] at he2
      subst he2
      exact hrun.1
  · rw [if_neg hs] at he
    exact hrun.2 e he

end Histfile

namespace Lib

theorem parse_timestamp (line : List Char) (ts : HistoryGrep.Timestamp)
    (h : ParsedLine.parse line = ParsedLine.Timestamp ts) :
    tsOfHashLine line = some ts := by
  rw [ParsedLine.parse] at h
  by_cases hw : (line.isEmpty || line.all rustIsWhitespace) = true
  · rw [if_pos hw] at h; simp at h
  · rw [if_neg hw] at h
    cases ht : tsOfHashLine line with
    | some ts2 => rw [ht] at h; cases h; rfl
    | none => rw [ht] at h; simp at h

theorem parse_command_props (line c : List Char)
    (h : ParsedLine.parse line = ParsedLine.Command c) :
    c = line ∧ line.all rustIsWhitespace = false := by
  rw [ParsedLine.parse] at h
  by_cases hw : (line.isEmpty || line.all rustIsWhitespace) = true
  · rw [if_pos hw] at h; simp at h
  · rw [if_neg hw] at h
    have hwf : line.all rustIsWhitespace = false := by
      rw [Bool.not_eq_true, Bool.or_eq_false_iff] at hw
      exact hw.2
    cases ht : tsOfHashLine line with
    | some ts2 => rw [ht] at h; simp at h
    | none =>
      rw [ht] at h
      cases h
      exact ⟨rfl, hwf⟩

/-- Entry invariant for the `lib.rs` variant: timestamp bounds, at least
one line, and no line empty or all-whitespace. -/
def entryOK (e : HistEntry) : Prop :=
  (MIN_REASONABLE_UNIXTIME ≤ e.ts.secs ∧ e.ts.secs ≤ CHRONO_MAX_SECS)
    ∧ e.lines ≠ [] ∧ ∀ l ∈ e.lines, l.all rustIsWhitespace = false

/-- Machine invariant for the `lib.rs` variant. -/
def stOK (st : ParserSt) : Prop :=
  (MIN_REASONABLE_UNIXTIME ≤ st.cur_entry.ts.secs ∧ st.cur_entry.ts.secs ≤ CHRONO_MAX_SECS)
    ∧ (∀ l ∈ st.cur_entry.lines, l.all rustIsWhitespace = false)
    ∧ (st.state = FileParseState.LastWasCommand → st.cur_entry.lines ≠ [])
    ∧ ∀ e ∈ st.ret, entryOK e

theorem lib_step_stOK (st : ParserSt) (line : List Char) (h : stOK st) : stOK (step st line) := by
  obtain ⟨ret, state, cur_entry⟩ := st
  obtain ⟨hts, hlines, hnonempty, hret⟩ := h
  cases hp : ParsedLine.parse line with
  | Empty =>
    rw [step, hp, step_empty]
    exact ⟨hts, hlines, hnonempty, hret⟩
  | Timestamp ts =>
    have hb := tsOfHashLine_bounds line ts (parse_timestamp line ts hp)
    cases state
    · rw [step, hp]
      show stOK { ret := ret, state := FileParseState.LastWasTimestamp,
                  cur_entry := { cur_entry with ts := ts } }
      refine ⟨hb, hlines, ?_, hret⟩
      intro hc
      exact nomatch hc
    · rw [step, hp]
      show stOK { ret := ret, state := FileParseState.LastWasTimestamp,
                  cur_entry := cur_entry }
      refine ⟨hts, hlines, ?_, hret⟩
      intro hc
      exact nomatch hc
    · rw [step, hp]
      show stOK { ret := ret ++ [cur_entry], state := FileParseState.LastWasTimestamp,
                  cur_entry := HistEntry.with_ts ts }
      refine ⟨hb, by simp [HistEntry.with_ts], ?_, fun e he => ?_⟩
      · intro hc
        exact nomatch hc
      · rcases List.mem_append.mp he with he2 | he2
        · exact hret e he2
        · rw [List.mem_singleton] at he2
          subst he2
          exact ⟨hts, hnonempty rfl, hlines⟩
  | Command cmd =>
    obtain ⟨rfl, hwf⟩ := parse_command_props line cmd hp
    cases state
    · rw [step, hp]
      show stOK { ret := ret ++ [{ ts := default_ts, lines := [cmd] }],
                  state := FileParseState.NoTimestamps, cur_entry := cur_entry }
      refine ⟨hts, hlines, hnonempty, fun e he => ?_⟩
      rcases List.mem_append.mp he with he2 | he2
      · exact hret e he2
      · rw [List.mem_singleton] at he2
        subst he2
        refine ⟨default_ts_bounds, by simp, fun l hl => ?_⟩
        rw [List.mem_singleton] at hl
        subst hl
        exact hwf
    · rw [step, hp]
      show stOK { ret := ret, state := FileParseState.LastWasCommand,
                  cur_entry := { cur_entry with lines := cur_entry.lines ++ [cmd] } }
      refine ⟨hts, fun l hl => ?_, fun _ => by simp, hret⟩
      rcases List.mem_append.mp hl with hl2 | hl2
      · exact hlines l hl2
      · rw [List.mem_singleton] at hl2
        subst hl2
        exact hwf
    · rw [step, hp]
      show stOK { ret := ret, state := FileParseState.LastWasCommand,
                  cur_entry := { cur_entry with lines := cur_entry.lines ++ [cmd] } }
      refine ⟨hts, fun l hl => ?_, fun _ => by simp, hret⟩
      rcases List.mem_append.mp hl with hl2 | hl2
      · exact hlines l hl2
      · rw [List.mem_singleton] at hl2
        subst hl2
        exact hwf

theorem lib_runLines_stOK :
    ∀ (ls : List (List Char)) (st : ParserSt), stOK st → stOK (runLines st ls)
  | [], _, h => h
  | l :: ls, st, h => lib_runLines_stOK ls (step st l) (lib_step_stOK st l h)

theorem parseLines_entryOK (lines : List (List Char)) :
    ∀ e ∈ parseLines lines, entryOK e := by
  intro e he
  have hrun : stOK (runLines initSt lines) :=
    lib_runLines_stOK lines initSt
      ⟨default_ts_bounds, by simp [initSt, HistEntry.with_ts], by simp [initSt], by simp [initSt]⟩
  rw [parseLines, finalize] at he
  by_cases hs : (runLines initSt lines).state = FileParseState.LastWasCommand
  · rw [if_pos hs] at he
    rcases List.mem_append.mp he with he2 | he2
    · exact hrun.2.2.2 e he2
    · rw [List.mem_singleton] at he2
      subst he2
      exact ⟨hrun.1, hrun.2.2.1 hs, hrun.2.1⟩
  · rw [if_neg hs] at he
    exact hrun.2.2.2 e he

end Lib

/-! ### Pattern-compiler characterizations -/

theorem stripSlashes_eq (s : List Char) :
    stripSlashes s
      = if 2 ≤ s.length ∧ s.head? = some '/' ∧ s.getLast? = some '/'
        then some ((s.drop 1).dropLast) else none := by
  cases s with
  | nil => simp [stripSlashes]
  | cons c rest =>
    by_cases hc : c = '/'
    · subst hc
      cases rest with
      | nil => simp [stripSlashes]
      | cons r rs =>
        rw [show stripSlashes ('/' :: r :: rs)
            = (if (r :: rs).getLast? = some '/' then some (r :: rs).dropLast else none)
            from rfl]
        by_cases hl : (r :: rs).getLast? = some '/'
        · rw [if_pos hl, if_pos ?_]
          · simp
          · refine ⟨by simp only [List.length_cons]; omega, rfl, ?_⟩
            rw [List.getLast?_cons_cons]
            exact hl
        · rw [if_neg hl, if_neg ?_]
          rintro ⟨-, -, h3⟩
          rw [List.getLast?_cons_cons] at h3
          exact hl h3
    · rw [show stripSlashes (c :: rest) = none from by
        rw [stripSlashes.eq_def]
        cases rest <;> simp [hc]]
      rw [if_neg ?_]
      rintro ⟨-, h2, -⟩
      simp at h2
      exact hc h2

theorem string_to_regex_delimited (s p : List Char) (mode : CaseMode)
    (h : stripSlashes s = some p) :
    string_to_regex s mode
      = (parseRegex p).map (fun items => { case_mode := mode, items := items }) := by
  rw [string_to_regex, h]

theorem string_to_regex_plain (s : List Char) (mode : CaseMode)
    (h : stripSlashes s = none) :
    string_to_regex s mode
      = some { case_mode := mode, items := s.map RItem.lit } := by
  rw [string_to_regex, h]
  rw [parseRegex_escape]
  rfl

theorem joined_command_eq (ls : List (List Char)) :
    (if ls.length = 1 then ls.headD [] else joinNL ls) = joinNL ls := by
  match ls with
  | [] => simp [joinNL]
  | [l] => simp [joinNL]
  | a :: b :: rest =>
    rw [if_neg ?_]
    simp only [List.length_cons]
    omega

theorem filterMap_all_some {α β : Type} (f : α → Option β) (g : α → β)
    (h : ∀ a, f a = some (g a)) : ∀ l : List α, l.filterMap f = l.map g
  | [] => rfl
  | a :: l => by
    rw [List.filterMap_cons, h a, List.map_cons, filterMap_all_some f g h l]

theorem get_include_regexes_eq (text : List Char) (mode : CaseMode) :
    get_include_regexes text mode
      = (split_ascii_whitespace text).map
          (fun w => { case_mode := mode, items := w.map RItem.lit }) := by
  rw [get_include_regexes]
  refine filterMap_all_some _ _ (fun w => ?_) _
  rw [raw_pattern_to_regex, parseRegex_escape]
  rfl

theorem allMap {α β : Type} (l : List α) (f : α → β) (p : β → Bool) :
    (l.map f).all p = l.all (fun w => p (f w)) := by
  induction l with
  | nil => rfl
  | cons a l ih => simp [ih]

theorem matches_words (e : Histfile.HistEntry) (text : List Char) (mode : CaseMode) :
    e.matches (get_include_regexes text mode) []
      = (split_ascii_whitespace text).all
          (fun w => containsSub (foldChars mode w) (foldChars mode e.command)) := by
  rw [Histfile.HistEntry.matches, get_include_regexes_eq]
  simp only [List.any_nil, Bool.not_false, Bool.and_true]
  rw [allMap]
  congr 1
  funext w
  exact isMatch_lit mode w e.command

/-! ### Claim theorems -/

theorem hist_parse_timestamp_iff (line : List Char) (v : Int) :
    Histfile.ParsedLine.parse line = Histfile.ParsedLine.Timestamp ⟨v⟩
      ↔ tsOfHashLine line = some ⟨v⟩ := by
  cases h : tsOfHashLine line with
  | some ts => simp [Histfile.ParsedLine.parse, h]
  | none => simp [Histfile.ParsedLine.parse, h]

theorem lib_parse_timestamp_iff (line : List Char) (v : Int)
    (h0 : (line.isEmpty || line.all rustIsWhitespace) = false) :
    Lib.ParsedLine.parse line = Lib.ParsedLine.Timestamp ⟨v⟩
      ↔ tsOfHashLine line = some ⟨v⟩ := by
  rw [Lib.ParsedLine.parse, if_neg (by simp [h0])]
  cases h : tsOfHashLine line with
  | some ts => simp
  | none => simp

/-- Claim C1, counterexample.  The claim's characterization of timestamp
recognition fails in three ways: `#+1262304000` is accepted as a
timestamp although the characters after `#` are not all ASCII digits
(`i64` parsing accepts a sign); `#9223372036854775807` consists of `#`
followed only by digits whose value exceeds the threshold, yet parses as
a command because chrono cannot represent the value; and in the `lib.rs`
variant a whitespace-only line is classified `Empty`, not `Command`. -/
theorem c1_counterexample :
    Histfile.ParsedLine.parse (("#+1262304000").toList)
        = Histfile.ParsedLine.Timestamp ⟨1262304000⟩
    ∧ (("+1262304000").toList).all Char.isDigit = false
    ∧ Histfile.ParsedLine.parse (("#9223372036854775807").toList)
        = Histfile.ParsedLine.Command (("#9223372036854775807").toList)
    ∧ (("9223372036854775807").toList).all Char.isDigit = true
    ∧ MIN_REASONABLE_UNIXTIME ≤ (digitsToNat (("9223372036854775807").toList) : Int)
    ∧ Lib.ParsedLine.parse (("  ").toList) = Lib.ParsedLine.Empty := by
  refine ⟨by decide, by decide, by decide, by decide, by decide, by decide⟩

/-- Claim C1, amended.  A line is classified as a Timestamp iff it is
`#` followed by a string accepted by Rust `i64` parsing (an optional
sign, then ASCII digits, within the i64 range) whose value `v`
satisfies `1262304000 ≤ v ≤ 8210298412799` (chrono's maximum second).
Every other line is a Command holding the original text verbatim in the
`histfile.rs` variant; the `lib.rs` variant first classifies empty or
all-whitespace lines as `Empty` and otherwise agrees. -/
theorem c1_amended_classification (line : List Char) :
    (∀ v : Int, Histfile.ParsedLine.parse line = Histfile.ParsedLine.Timestamp ⟨v⟩
        ↔ ∃ body, line = '#' :: body ∧ parseI64 body = some v
            ∧ MIN_REASONABLE_UNIXTIME ≤ v ∧ v ≤ CHRONO_MAX_SECS)
    ∧ ((∃ ts, Histfile.ParsedLine.parse line = Histfile.ParsedLine.Timestamp ts)
        ∨ Histfile.ParsedLine.parse line = Histfile.ParsedLine.Command line)
    ∧ ((line.isEmpty || line.all rustIsWhitespace) = true
        → Lib.ParsedLine.parse line = Lib.ParsedLine.Empty)
    ∧ ((line.isEmpty || line.all rustIsWhitespace) = false
        → ((∀ v : Int, Lib.ParsedLine.parse line = Lib.ParsedLine.Timestamp ⟨v⟩
              ↔ ∃ body, line = '#' :: body ∧ parseI64 body = some v
                  ∧ MIN_REASONABLE_UNIXTIME ≤ v ∧ v ≤ CHRONO_MAX_SECS)
            ∧ ((∃ ts, Lib.ParsedLine.parse line = Lib.ParsedLine.Timestamp ts)
                ∨ Lib.ParsedLine.parse line = Lib.ParsedLine.Command line))) := by
  refine ⟨?_, ?_, ?_, ?_⟩
  · intro v
    rw [hist_parse_timestamp_iff, tsOfHashLine_some_iff]
  · rcases Histfile.parse_cases line with ⟨ts, hp, -⟩ | ⟨hp, -⟩
    · exact Or.inl ⟨ts, hp⟩
    · exact Or.inr hp
  · intro h
    exact Lib.parse_eq_empty line h
  · intro h0
    refine ⟨fun v => ?_, ?_⟩
    · rw [lib_parse_timestamp_iff line v h0, tsOfHashLine_some_iff]
    · cases h : tsOfHashLine line with
      | some ts =>
        refine Or.inl ⟨ts, ?_⟩
        rw [Lib.ParsedLine.parse, if_neg (by simp [h0]), h]
      | none => exact Or.inr (Lib.lib_parse_eq_command line h0 h)

/-- Witness for C1's amended theorem at concrete inputs. -/
theorem c1_witness :
    Histfile.ParsedLine.parse (("#1262304000").toList)
        = Histfile.ParsedLine.Timestamp ⟨1262304000⟩
      ∧ Lib.ParsedLine.parse ((" ").toList) = Lib.ParsedLine.Empty :=
  ⟨((c1_amended_classification (("#1262304000").toList)).1 1262304000).mpr
      ⟨("1262304000").toList, by decide, by decide, by decide, by decide⟩,
    (c1_amended_classification ((" ").toList)).2.2.1 (by decide)⟩

/-- Claim C2: `matches` is true iff every include pattern matches the
entry's full newline-joined text and no exclude pattern does; empty
include and exclude lists are vacuous, so `matches(entry, [], [])` is
true.  Holds for both the `histfile.rs` variant (whose entries store
the joined text) and the `lib.rs` variant (which joins its line list,
borrowing the single line directly when there is exactly one). -/
theorem c2_matches_semantics :
    (∀ (e : Histfile.HistEntry) (includes excludes : List Regex),
      e.matches includes excludes = true
        ↔ ((∀ re ∈ includes, re.is_match e.command = true)
            ∧ ∀ re ∈ excludes, ¬ re.is_match e.command = true))
    ∧ (∀ e : Histfile.HistEntry, e.matches [] [] = true)
    ∧ (∀ (e : Lib.HistEntry) (includes excludes : List Regex),
      e.matches includes excludes = true
        ↔ ((∀ re ∈ includes, re.is_match (joinNL e.lines) = true)
            ∧ ∀ re ∈ excludes, ¬ re.is_match (joinNL e.lines) = true))
    ∧ ∀ e : Lib.HistEntry, e.matches [] [] = true := by
  refine ⟨?_, ?_, ?_, ?_⟩
  · intro e includes excludes
    simp [Histfile.HistEntry.matches]
  · intro e
    simp [Histfile.HistEntry.matches]
  · intro e includes excludes
    rw [Lib.HistEntry.matches]
    simp only [joined_command_eq]
    simp
  · intro e
    rw [Lib.HistEntry.matches]
    simp

/-- Witness for C2 at a concrete entry and pattern lists. -/
theorem c2_witness :
    ({ ts := default_ts, command := ("ls -la").toList } : Histfile.HistEntry).matches [] []
      = true :=
  c2_matches_semantics.2.1 { ts := default_ts, command := ("ls -la").toList }

/-- Claim C3: a pattern is treated as a regular expression exactly when
it has length at least 2 and both starts and ends with `/`; then its
interior (interior slashes untouched) is compiled directly.  Otherwise
the whole pattern is escaped and the compiled matcher accepts a text
iff the pattern occurs in it as a literal substring (up to the case
fold of the mode).  Concretely, `asd[12]` matches `asd[12]` but not
`asd1`, while `/asd[12]/` matches `asd1` and `asd2` but not
`asd[12]`. -/
theorem c3_pattern_compilation (s : List Char) (mode : CaseMode) :
    (stripSlashes s
        = if 2 ≤ s.length ∧ s.head? = some '/' ∧ s.getLast? = some '/'
          then some ((s.drop 1).dropLast) else none)
    ∧ (∀ p, stripSlashes s = some p →
        string_to_regex s mode
          = (parseRegex p).map (fun items => { case_mode := mode, items := items }))
    ∧ (stripSlashes s = none →
        string_to_regex s mode = some { case_mode := mode, items := s.map RItem.lit }
          ∧ ∀ text, Regex.is_match { case_mode := mode, items := s.map RItem.lit } text = true
              ↔ ∃ l r, foldChars mode text = l ++ foldChars mode s ++ r)
    ∧ ((string_to_regex (("asd[12]").toList) CaseMode.Sensitive).map
          (fun re => (re.is_match (("asd[12]").toList), re.is_match (("asd1").toList)))
        = some (true, false))
    ∧ ((string_to_regex (("/asd[12]/").toList) CaseMode.Sensitive).map
          (fun re => (re.is_match (("asd1").toList), re.is_match (("asd2").toList),
            re.is_match (("asd[12]").toList)))
        = some (true, true, false)) := by
  refine ⟨stripSlashes_eq s, ?_, ?_, by decide, by decide⟩
  · intro p hp
    exact string_to_regex_delimited s p mode hp
  · intro h
    refine ⟨string_to_regex_plain s mode h, fun text => ?_⟩
    rw [isMatch_lit, containsSub_iff]

/-- Witness for C3's conditional branches at concrete patterns. -/
theorem c3_witness :
    string_to_regex (("asd").toList) CaseMode.Sensitive
        = some { case_mode := CaseMode.Sensitive, items := (("asd").toList).map RItem.lit }
      ∧ string_to_regex (("/fo.o/").toList) CaseMode.Sensitive
          = (parseRegex (("fo.o").toList)).map
              (fun items => { case_mode := CaseMode.Sensitive, items := items }) :=
  ⟨((c3_pattern_compilation (("asd").toList) CaseMode.Sensitive).2.2.1 (by decide)).1,
    (c3_pattern_compilation (("/fo.o/").toList) CaseMode.Sensitive).2.1
      (("fo.o").toList) (by decide)⟩

/-- Claim C4: in state `LastWasTimestamp` a further Timestamp line is
dropped: the whole machine state (result, state tag, pending timestamp,
accumulated lines) is unchanged, in both source variants.  The input
`#1262305001\n#1262305003\nfoo\n#1262305007\nbar` parses to exactly
the two entries `(1262305001, "foo")` and `(1262305007, "bar")`. -/
theorem c4_consecutive_timestamps :
    (∀ (st : Histfile.ParserSt) (t : Timestamp),
      st.state = FileParseState.LastWasTimestamp →
      Histfile.stepParsed st (Histfile.ParsedLine.Timestamp t) = st)
    ∧ (∀ (st : Lib.ParserSt) (t : Timestamp),
      st.state = FileParseState.LastWasTimestamp →
      Lib.stepParsed st (Lib.ParsedLine.Timestamp t) = st)
    ∧ Histfile.parse_history_file (("#1262305001\n#1262305003\nfoo\n#1262305007\nbar").toList)
        = [{ ts := ⟨1262305001⟩, command := ("foo").toList },
           { ts := ⟨1262305007⟩, command := ("bar").toList }]
    ∧ Lib.parse_history_file (("#1262305001\n#1262305003\nfoo\n#1262305007\nbar").toList)
        = [{ ts := ⟨1262305001⟩, lines := [("foo").toList] },
           { ts := ⟨1262305007⟩, lines := [("bar").toList] }] := by
  refine ⟨?_, ?_, by decide, by decide⟩
  · intro st t h
    obtain ⟨ret, state, cur_ts, cur_lines⟩ := st
    simp only at h
    subst h
    rfl
  · intro st t h
    obtain ⟨ret, state, cur_entry⟩ := st
    simp only at h
    subst h
    rfl

/-- Witness for C4's step facts at a concrete machine state. -/
theorem c4_witness :
    Histfile.stepParsed
        { ret := [], state := FileParseState.LastWasTimestamp,
          cur_ts := ⟨1262305001⟩, cur_lines := [] }
        (Histfile.ParsedLine.Timestamp ⟨1262305003⟩)
      = { ret := [], state := FileParseState.LastWasTimestamp,
          cur_ts := ⟨1262305001⟩, cur_lines := [] } :=
  c4_consecutive_timestamps.1
    { ret := [], state := FileParseState.LastWasTimestamp,
      cur_ts := ⟨1262305001⟩, cur_lines := [] } ⟨1262305003⟩ rfl

/-- Claim C5, counterexample.  On inputs without timestamp lines the
claim promises one entry per non-empty line.  The `histfile.rs` parser
also emits an entry for an empty line (`"a\n\nb"` has two non-empty
lines but parses to three entries, one with empty text), and the
`lib.rs` parser drops a whitespace-only line (`"  "` is one non-empty
line but parses to no entries). -/
theorem c5_counterexample :
    Histfile.parse_history_file (("a\n\nb").toList)
        = [{ ts := default_ts, command := ("a").toList },
           { ts := default_ts, command := [] },
           { ts := default_ts, command := ("b").toList }]
    ∧ toLines (("a\n\nb").toList) = [("a").toList, [], ("b").toList]
    ∧ (∀ l ∈ toLines (("a\n\nb").toList), tsOfHashLine l = none)
    ∧ Lib.parse_history_file (("  ").toList) = []
    ∧ toLines (("  ").toList) = [("  ").toList]
    ∧ ("  ").toList ≠ [] := by
  refine ⟨by decide, by decide, by decide, by decide, by decide, by decide⟩

/-- Claim C5, amended.  For a list of lines none of which is recognized
as a timestamp marker: the `histfile.rs` parser yields one entry per
line — including empty lines — in order, each with the sentinel
timestamp and the line as its text; the `lib.rs` parser yields one
entry per line that is neither empty nor all-whitespace, in order, each
with the sentinel timestamp and that single line as its text. -/
theorem c5_amended_no_timestamps (lines : List (List Char))
    (h : ∀ l ∈ lines, tsOfHashLine l = none) :
    Histfile.parseLines lines = lines.map (fun l => { ts := default_ts, command := l })
    ∧ Lib.parseLines lines
        = (lines.filter (fun l => !(l.isEmpty || l.all rustIsWhitespace))).map
            (fun l => { ts := default_ts, lines := [l] }) := by
  constructor
  · rw [Histfile.parseLines, Histfile.hist_runLines_noTimestamps lines Histfile.initSt rfl h,
      Histfile.finalize, if_neg (fun hc => nomatch hc)]
    simp [Histfile.initSt]
  · rw [Lib.parseLines, Lib.lib_runLines_noTimestamps lines Lib.initSt rfl h,
      Lib.finalize, if_neg (fun hc => nomatch hc)]
    simp [Lib.initSt]

/-- Witness for C5's amended theorem at a concrete timestamp-free
input. -/
theorem c5_witness :
    Histfile.parseLines [("foo").toList, ("bar").toList]
        = [{ ts := default_ts, command := ("foo").toList },
           { ts := default_ts, command := ("bar").toList }]
      ∧ Lib.parseLines [("foo").toList, ("bar").toList]
          = [{ ts := default_ts, lines := [("foo").toList] },
             { ts := default_ts, lines := [("bar").toList] }] := by
  have h := c5_amended_no_timestamps [("foo").toList, ("bar").toList] (by decide)
  exact ⟨h.1.trans (by decide), h.2.trans (by decide)⟩

/-- Claim C6: at end of input the in-progress entry is flushed exactly
when the machine is in state `LastWasCommand`; ending in
`LastWasTimestamp` leaves the emitted list as it was, so a trailing
timestamp with no command produces no entry (concretely, the input
`#1262305001` parses to no entries in both variants). -/
theorem c6_finalize :
    (∀ st : Histfile.ParserSt,
      (st.state = FileParseState.LastWasCommand →
        Histfile.finalize st
          = st.ret ++ [{ ts := st.cur_ts, command := joinNL st.cur_lines }])
      ∧ (st.state ≠ FileParseState.LastWasCommand → Histfile.finalize st = st.ret))
    ∧ (∀ st : Lib.ParserSt,
      (st.state = FileParseState.LastWasCommand →
        Lib.finalize st = st.ret ++ [st.cur_entry])
      ∧ (st.state ≠ FileParseState.LastWasCommand → Lib.finalize st = st.ret))
    ∧ (∀ lines : List (List Char),
        (Histfile.runLines Histfile.initSt lines).state = FileParseState.LastWasTimestamp
        → Histfile.parseLines lines = (Histfile.runLines Histfile.initSt lines).ret)
    ∧ (∀ lines : List (List Char),
        (Lib.runLines Lib.initSt lines).state = FileParseState.LastWasTimestamp
        → Lib.parseLines lines = (Lib.runLines Lib.initSt lines).ret)
    ∧ Histfile.parse_history_file (("#1262305001").toList) = []
    ∧ Lib.parse_history_file (("#1262305001").toList) = [] := by
  refine ⟨?_, ?_, ?_, ?_, by decide, by decide⟩
  · intro st
    exact ⟨fun h => by rw [Histfile.finalize, if_pos h],
      fun h => by rw [Histfile.finalize, if_neg h]⟩
  · intro st
    exact ⟨fun h => by rw [Lib.finalize, if_pos h],
      fun h => by rw [Lib.finalize, if_neg h]⟩
  · intro lines h
    rw [Histfile.parseLines, Histfile.finalize, if_neg (by rw [h]; exact fun hc => nomatch hc)]
  · intro lines h
    rw [Lib.parseLines, Lib.finalize, if_neg (by rw [h]; exact fun hc => nomatch hc)]

/-- Witness for C6's flush characterization at a concrete state. -/
theorem c6_witness :
    Histfile.finalize
        { ret := [], state := FileParseState.LastWasTimestamp,
          cur_ts := ⟨1262305001⟩, cur_lines := [] }
      = [] :=
  (c6_finalize.1
      { ret := [], state := FileParseState.LastWasTimestamp,
        cur_ts := ⟨1262305001⟩, cur_lines := [] }).2 (fun hc => nomatch hc)

/-- Claim C7, counterexample.  The claimed invariant says an entry's
text consists of one or more non-empty lines, but the `histfile.rs`
parser emits an entry with empty text for the input `"\n"`, and an
entry whose text contains an empty line for
`"#1262305001\n\nfoo"`. -/
theorem c7_counterexample :
    Histfile.parse_history_file (("\n").toList) = [{ ts := default_ts, command := [] }]
    ∧ Histfile.parse_history_file (("#1262305001\n\nfoo").toList)
        = [{ ts := ⟨1262305001⟩, command := ('\n' :: ("foo").toList) }] := by
  exact ⟨by decide, by decide⟩

/-- Claim C7, amended.  Every entry emitted by either parser has a
timestamp between the sentinel threshold `1262304000` (the sentinel
itself equals the threshold) and chrono's maximum `8210298412799`; in
the `lib.rs` variant every entry additionally has at least one line and
no line of it is empty or all-whitespace (in the `histfile.rs` variant
the text may be or contain empty lines); and both machines only ever
append to the emitted list, so entries stay in file order. -/
theorem c7_amended_invariants (lines : List (List Char)) :
    (∀ e ∈ Histfile.parseLines lines,
      MIN_REASONABLE_UNIXTIME ≤ e.ts.secs ∧ e.ts.secs ≤ CHRONO_MAX_SECS)
    ∧ (∀ e ∈ Lib.parseLines lines,
      (MIN_REASONABLE_UNIXTIME ≤ e.ts.secs ∧ e.ts.secs ≤ CHRONO_MAX_SECS)
        ∧ e.lines ≠ [] ∧ ∀ l ∈ e.lines, l.all rustIsWhitespace = false)
    ∧ (∀ st : Histfile.ParserSt, ∃ extra, (Histfile.runLines st lines).ret = st.ret ++ extra)
    ∧ (∀ st : Lib.ParserSt, ∃ extra, (Lib.runLines st lines).ret = st.ret ++ extra) := by
  refine ⟨Histfile.parseLines_tsOK lines, Lib.parseLines_entryOK lines,
    fun st => Histfile.hist_runLines_ret_append lines st,
    fun st => Lib.lib_runLines_ret_append lines st⟩

/-- Witness for C7's amended invariants at a concrete parse. -/
theorem c7_witness :
    MIN_REASONABLE_UNIXTIME
        ≤ ({ ts := default_ts, command := ("foo").toList } : Histfile.HistEntry).ts.secs
      ∧ ({ ts := default_ts, command := ("foo").toList } : Histfile.HistEntry).ts.secs
          ≤ CHRONO_MAX_SECS :=
  (c7_amended_invariants [("foo").toList]).1
    { ts := default_ts, command := ("foo").toList } (by decide)

/-- Claim C8: for every list of entries, deduplication equals the
spec-side `keepFirstOfRuns` — each run of consecutive entries with
identical command text collapses to the run's first (hence, order being
preserved, earliest-timestamped) entry, and the entry starting each new
run is always kept, so non-consecutive duplicates survive as separate
entries.  Moreover deduplication is idempotent, returns a subsequence
of its input (order preserved, no entry altered), leaves no two
consecutive entries with equal command text, and on the run pattern
`[A, B, B, B, A]` keeps `[A, B, A]`. -/
theorem c8_dedup :
    (∀ l : List Histfile.HistEntry,
      Histfile.dedup_entries l = Histfile.keepFirstOfRuns l)
    ∧ (∀ l : List Histfile.HistEntry,
      Histfile.dedup_entries (Histfile.dedup_entries l) = Histfile.dedup_entries l)
    ∧ (∀ l : List Histfile.HistEntry, List.Sublist (Histfile.dedup_entries l) l)
    ∧ (∀ l : List Histfile.HistEntry,
        List.Chain' Histfile.cmdDiff (Histfile.dedup_entries l))
    ∧ Histfile.dedup_entries
        [{ ts := ⟨1262304000⟩, command := ("ls -la").toList },
         { ts := ⟨1262304300⟩, command := ("rm foobar").toList },
         { ts := ⟨1262304600⟩, command := ("rm foobar").toList },
         { ts := ⟨1262304720⟩, command := ("rm foobar").toList },
         { ts := ⟨1262305380⟩, command := ("ls -la").toList }]
      = [{ ts := ⟨1262304000⟩, command := ("ls -la").toList },
         { ts := ⟨1262304300⟩, command := ("rm foobar").toList },
         { ts := ⟨1262305380⟩, command := ("ls -la").toList }] := by
  refine ⟨Histfile.dedup_entries_eq_keepFirstOfRuns, ?_, ?_, ?_, by decide⟩
  · intro l
    rw [Histfile.dedup_entries_eq_destutter, Histfile.dedup_entries_eq_destutter,
      List.destutter_idem]
  · intro l
    rw [Histfile.dedup_entries_eq_destutter]
    exact List.destutter_sublist Histfile.cmdDiff l
  · intro l
    rw [Histfile.dedup_entries_eq_destutter]
    exact List.destutter_is_chain' Histfile.cmdDiff l

/-- Claim C9: recomputing the interactive filter from a search text
keeps exactly the master-list entries, in original order, whose command
text contains every whitespace-separated word of the search text as a
literal substring under the active case mode (each word is escaped
before compilation, so it never acts as a regex), and the selection of
the fresh `FilteredList` is its last entry (none when it is empty). -/
theorem c9_filter_recompute (master : List Histfile.HistEntry) (text : List Char)
    (mode : CaseMode) :
    (do_filter master text mode).entries
        = master.filter (fun e => (split_ascii_whitespace text).all
            (fun w => containsSub (foldChars mode w) (foldChars mode e.command)))
    ∧ ((do_filter master text mode).entries = [] → (do_filter master text mode).selected = none)
    ∧ ((do_filter master text mode).entries ≠ [] →
        (do_filter master text mode).selected
          = some ((do_filter master text mode).entries.length - 1)) := by
  refine ⟨?_, ?_, ?_⟩
  · rw [do_filter, FilteredList.new]
    refine List.filter_congr (fun e _ => ?_)
    exact matches_words e text mode
  · intro h
    rw [do_filter, FilteredList.new] at h ⊢
    simp only at h ⊢
    rw [if_pos (by simp [h])]
  · intro h
    rw [do_filter, FilteredList.new] at h ⊢
    simp only at h ⊢
    rw [if_neg (by simpa using h)]

/-- Witness for C9 at a concrete master list, search text and case
mode. -/
theorem c9_witness :
    (do_filter
        [{ ts := default_ts, command := ("Lorem Ipsum").toList },
         { ts := default_ts, command := ("is simply a dummy").toList }]
        (("lorem").toList) CaseMode.Insensitive).entries
      = [{ ts := default_ts, command := ("Lorem Ipsum").toList }] := by
  have h := (c9_filter_recompute
      [{ ts := default_ts, command := ("Lorem Ipsum").toList },
       { ts := default_ts, command := ("is simply a dummy").toList }]
      (("lorem").toList) CaseMode.Insensitive).1
  exact h.trans (by decide)

/-- Claim C10: in the `lib.rs` parser, every line consisting entirely of
whitespace (the empty line included) is classified `Empty`, and an
`Empty` line leaves the machine state — result list, state tag and
in-progress entry — completely unchanged, so a whitespace-only physical
line inside a multi-line command is absent from the reconstructed
entry (concretely, `#1262305001\nfoo\n \nbar` parses to the single
entry `(1262305001, ["foo", "bar"])`). -/
theorem c10_lib_whitespace_lines :
    (∀ line : List Char, line.all rustIsWhitespace = true
        → Lib.ParsedLine.parse line = Lib.ParsedLine.Empty)
    ∧ (∀ st : Lib.ParserSt, Lib.stepParsed st Lib.ParsedLine.Empty = st)
    ∧ Lib.parse_history_file (("#1262305001\nfoo\n \nbar").toList)
        = [{ ts := ⟨1262305001⟩, lines := [("foo").toList, ("bar").toList] }] := by
  refine ⟨?_, Lib.step_empty, by decide⟩
  intro line h
  exact Lib.parse_eq_empty line (by simp [h])

/-- Witness for C10's classification of a whitespace-only line. -/
theorem c10_witness :
    Lib.ParsedLine.parse ((" \t ").toList) = Lib.ParsedLine.Empty :=
  c10_lib_whitespace_lines.1 ((" \t ").toList) (by decide)

end HistoryGrep
